import Mathlib

/-!
Verification of the transcription orchestration core of
`veralux-audio-stack/whisper_server.py`.

Modelling conventions:
* Python strings are modelled as `List Char`; the ASCII whitespace set of
  Python's `str.strip` / regex `\s` is `isPySpace`.
* Python floats are modelled as exact rationals (`ℚ`); `round(x, 4)` is
  modelled as exact decimal round-half-to-even.
* The external speech-to-text engine (`model.transcribe`) is an opaque
  parameter: a function from the effective engine parameters to either an
  `EngineFailure` or a list of segments.
* The regular-expression passes of `_deduplicate_text` are embedded as
  specialised backtracking matchers with the exact leftmost / lazy-group /
  greedy-separator semantics of CPython's `re` for the two patterns used by
  the source.  Recursion is fuel-based (fuel bounds the recursion depth by
  the length of the remaining input) so that all definitions reduce in the
  kernel.
-/

set_option maxRecDepth 4000
set_option allowUnsafeReducibility true
attribute [semireducible] Rat.mul Rat.inv Rat.add Rat.sub Rat.ofScientific

/-- Whitespace characters of Python's `str.strip` and of regex `\s`
    (ASCII range). -/
def isPySpace (c : Char) : Bool :=
  c == ' ' || c == '\t' || c == '\n' || c == '\r' || c == '\x0b' || c == '\x0c'

/-- Python `str.strip()`: drop leading and trailing whitespace. -/
def stripWs (s : List Char) : List Char :=
  ((s.dropWhile isPySpace).reverse.dropWhile isPySpace).reverse

/-- Python `str.lower()` (ASCII model). -/
def lowerStr (s : List Char) : List Char :=
  s.map Char.toLower

/-- Case-insensitive prefix stripping: if `g` matches the beginning of `r`
    up to case, return the rest of `r` (used for the backreference `\1`
    under `re.IGNORECASE`). -/
def ciStrip : List Char → List Char → Option (List Char)
  | [], r => some r
  | _ :: _, [] => none
  | a :: g, b :: r => if a.toLower = b.toLower then ciStrip g r else none

/-- Matcher for the sub-pattern `(?:\1\s*)+` of the hallucination regex
    `(.{8,}?)\s*(?:\1\s*)+`, with the group `\1 = a :: g`: it consumes at
    least one case-insensitive copy of the group, each copy followed by the
    greedily maximal run of whitespace, and returns the remaining input.
    The backtracking-priority analysis of the pattern shows the greedy `+`
    exits only when no further copy follows the maximal whitespace run.
    `fuel` bounds the recursion depth; any `fuel ≥ 1` suffices because each
    iteration consumes at least `1 + g.length` characters. -/
def plusRepF : Nat → Char → List Char → List Char → Option (List Char)
  | 0, _, _, _ => none
  | fuel + 1, a, g, r =>
    match ciStrip (a :: g) r with
    | none => none
    | some r1 =>
      match plusRepF fuel a g (r1.dropWhile isPySpace) with
      | some e => some e
      | none => some (r1.dropWhile isPySpace)

/-- Matcher for `\s*(?:\1\s*)+` after the captured group: the leading `\s*`
    is greedy, so whitespace-drop counts are tried from `k` (initially the
    maximal run) down to `0`. -/
def wsTailGo (a : Char) (g : List Char) (r : List Char) : Nat → Option (List Char)
  | 0 => plusRepF (r.length + 1) a g r
  | k + 1 =>
    match plusRepF (r.length + 1) a g (r.drop (k + 1)) with
    | some e => some e
    | none => wsTailGo a g r k

/-- Full tail matcher `\s*(?:\1\s*)+` for group `a :: g` against `r`. -/
def wsTail (a : Char) (g : List Char) (r : List Char) : Option (List Char) :=
  wsTailGo a g r (r.takeWhile isPySpace).length

/-- Try the hallucination regex at the start of `s` with a fixed group
    length `L`: the group is `s.take L` (all characters must be
    non-newline, since `.` does not match `\n`), the tail pattern must
    match the rest.  Returns the captured group and the input remaining
    after the whole match. -/
def groupTryAt (s : List Char) (L : Nat) : Option (List Char × List Char) :=
  match s.take L with
  | [] => none
  | a :: g =>
    if (s.take L).all (fun c => c != '\n') then
      (wsTail a g (s.drop L)).map (fun rest => (s.take L, rest))
    else none

/-- Lazy group search: try group lengths `L, L+1, …` (shortest first, as
    `.{8,}?` is lazy) while `L ≤ s.length`.  `fuel` bounds the number of
    lengths tried. -/
def tryLens (s : List Char) : Nat → Nat → Option (List Char × List Char)
  | 0, _ => none
  | fuel + 1, L =>
    if L ≤ s.length then
      match groupTryAt s L with
      | some res => some res
      | none => tryLens s fuel (L + 1)
    else none

/-- Match of the hallucination regex `(.{8,}?)\s*(?:\1\s*)+` anchored at the
    start of `s`. -/
def matchHere (s : List Char) : Option (List Char × List Char) :=
  tryLens s (s.length + 1) 8

/-- The scan of `re.sub`: at each position try the pattern; on a match emit
    the captured group (the replacement template is `\1`) and continue after
    the match, otherwise emit one character and move on. -/
def subRepeatsF : Nat → List Char → List Char
  | 0, s => s
  | fuel + 1, s =>
    match matchHere s with
    | some (g, rest) => g ++ subRepeatsF fuel rest
    | none =>
      match s with
      | [] => []
      | c :: t => c :: subRepeatsF fuel t

/-- Pass 1 of `_deduplicate_text`:
    `re.sub(r'(.{8,}?)\s*(?:\1\s*)+', r'\1', s, flags=re.IGNORECASE)`. -/
def subRepeats (s : List Char) : List Char :=
  subRepeatsF (s.length + 1) s

/-- Sentence-ending punctuation of the lookbehind `(?<=[.?!])`. -/
def isSentencePunct (c : Char) : Bool :=
  c == '.' || c == '?' || c == '!'

/-- Does the reversed accumulator start with sentence punctuation (i.e. was
    the previously scanned character one of `.?!`)? -/
def headIsPunct : List Char → Bool
  | [] => false
  | p :: _ => isSentencePunct p

/-- Scanner for `re.split(r'(?<=[.?!])\s+', s)`: `cur` is the reversed
    current piece; a whitespace character directly preceded by sentence
    punctuation ends the piece and the whole whitespace run is consumed. -/
def goSplitF : Nat → List Char → List Char → List (List Char)
  | 0, cur, rest => [cur.reverse ++ rest]
  | fuel + 1, cur, rest =>
    match rest with
    | [] => [cur.reverse]
    | c :: t =>
      if isPySpace c && headIsPunct cur then
        cur.reverse :: goSplitF fuel [] (t.dropWhile isPySpace)
      else goSplitF fuel (c :: cur) t

/-- Pass 2 sentence splitting: `re.split(r'(?<=[.?!])\s+', s)`. -/
def splitSentences (s : List Char) : List (List Char) :=
  goSplitF s.length [] s

/-- Python `s.rstrip('- ')`. -/
def rstripDashSpace (s : List Char) : List Char :=
  (s.reverse.dropWhile (fun c => c == '-' || c == ' ')).reverse

/-- The filter of pass 2: a later sentence is kept when its cleaned,
    lower-cased form is non-empty and the first sentence (lower-cased) does
    not start with it. -/
def keepSentence (first : List Char) (s : List Char) : Bool :=
  let clean := lowerStr (rstripDashSpace s)
  !clean.isEmpty && !(clean.isPrefixOf (lowerStr first))

/-- Python `' '.join(pieces)`. -/
def joinSpace : List (List Char) → List Char
  | [] => []
  | [p] => p
  | p :: ps => p ++ ' ' :: joinSpace ps

/-- `_deduplicate_text` from `whisper_server.py`: strip; collapse repeated
    phrases (pass 1); split on sentence boundaries and drop near-duplicate
    trailing fragments (pass 2). -/
def deduplicate_text (text : List Char) : List Char :=
  let stripped := stripWs text
  if stripped.isEmpty then stripped
  else
    let deduped := subRepeats stripped
    let stripped2 := if deduped = stripped then stripped else stripWs deduped
    let sentences := splitSentences stripped2
    if sentences.length ≤ 1 then stripped2
    else
      match sentences with
      | [] => stripped2
      | first :: restS => joinSpace (first :: restS.filter (keepSentence first))

/-! ## Format sniffer (`_choose_suffix`) -/

/-- The final path component (`pathlib.Path(...)` takes the part after the
    last `/` for suffix computation). -/
def lastComponent (s : List Char) : List Char :=
  (s.reverse.takeWhile (fun c => c != '/')).reverse

/-- `pathlib.Path(name).suffix`: the part of the name from its last dot,
    provided that dot is neither the first nor the last character. -/
def dotSuffix (name : List Char) : List Char :=
  let extRev := name.reverse.takeWhile (fun c => c != '.')
  if extRev.length + 1 < name.length && !extRev.isEmpty then
    '.' :: extRev.reverse
  else []

/-- The filename-extension set accepted by `_choose_suffix`. -/
def recognizedSuffixes : List (List Char) :=
  [".wav".data, ".webm".data, ".mp3".data, ".m4a".data, ".ogg".data, ".flac".data]

/-- Substring test (Python `pat in ct`). -/
def containsSub (pat : List Char) : List Char → Bool
  | [] => pat.isEmpty
  | c :: t => pat.isPrefixOf (c :: t) || containsSub pat t

/-- `_choose_suffix(content_type, filename)` from `whisper_server.py`:
    filename extension first (when the filename is non-empty and the
    lower-cased extension is recognized), then substring checks against the
    lower-cased declared content type, defaulting to `.wav`. -/
def choose_suffix (content_type : Option (List Char)) (filename : Option (List Char)) :
    List Char :=
  let fromName : Option (List Char) :=
    match filename with
    | some f =>
      if !f.isEmpty then
        let suf := lowerStr (dotSuffix (lastComponent f))
        if suf ∈ recognizedSuffixes then some suf else none
      else none
    | none => none
  match fromName with
  | some suf => suf
  | none =>
    let ct := lowerStr (match content_type with | some c => c | none => [])
    if containsSub "wav".data ct then ".wav".data
    else if containsSub "webm".data ct then ".webm".data
    else if containsSub "mpeg".data ct || containsSub "mp3".data ct then ".mp3".data
    else if containsSub "ogg".data ct then ".ogg".data
    else if containsSub "flac".data ct then ".flac".data
    else ".wav".data

/-! ## Segments and the confidence aggregator (`_transcribe_file`) -/

/-- A segment as returned by the engine: times in seconds, per-segment
    average log-probability and no-speech probability (floats modelled as
    exact rationals), raw text. -/
structure Seg where
  seg_start : ℚ
  seg_end : ℚ
  avg_logprob : ℚ
  no_speech_prob : ℚ
  text : List Char
deriving DecidableEq

/-- `max(seg.end - seg.start, 0.01)`: segment duration floored at 0.01s. -/
def segWeight (s : Seg) : ℚ :=
  max (s.seg_end - s.seg_start) (1 / 100)

/-- The accumulation loop of `_transcribe_file`: running
    `(weighted_logprob, total_duration)`. -/
def aggLoop : List Seg → ℚ × ℚ → ℚ × ℚ
  | [], acc => acc
  | s :: t, (wlp, dur) => aggLoop t (wlp + s.avg_logprob * segWeight s, dur + segWeight s)

/-- The confidence aggregator of `_transcribe_file`:
    `weighted_logprob / total_duration if total_duration > 0 else -1.0`. -/
def avgLogprobOf (segs : List Seg) : ℚ :=
  let acc := aggLoop segs (0, 0)
  if 0 < acc.2 then acc.1 / acc.2 else -1

/-- Round half to even (the rounding mode of Python's `round`), here on an
    exact rational. -/
def roundHalfEven (x : ℚ) : ℤ :=
  let f := ⌊x⌋
  let r := x - (f : ℚ)
  if r < 1 / 2 then f
  else if 1 / 2 < r then f + 1
  else if f % 2 = 0 then f else f + 1

/-- `round(x, 4)` modelled exactly over `ℚ`. -/
def round4 (x : ℚ) : ℚ :=
  (roundHalfEven (x * 10000) : ℚ) / 10000

/-! ## Engine adapter and `_transcribe_file` -/

/-- The effective parameters of one engine invocation (beam width, language
    hint, optional initial prompt).  The fixed process-wide thresholds do
    not vary between invocations and are omitted from the call record. -/
structure EngineCall where
  beam : ℕ
  language : List Char
  prompt : Option (List Char)
deriving DecidableEq

/-- The opaque external engine: may fail (`EngineFailure`, modelled as
    `Except.error ()`) or return the ordered segment list. -/
def Engine : Type :=
  EngineCall → Except Unit (List Seg)

deriving instance DecidableEq for Except

/-- Process-wide configuration read from the environment at startup. -/
structure Config where
  max_body_bytes : ℕ
  beam_size : ℕ
  retry_beam_size : ℕ
  retry_logprob_threshold : ℚ
  language : List Char
  initial_prompt : List Char

/-- Python `a or b` for an optional string argument (`None` and the empty
    string are falsy). -/
def pyOrStr (a : Option (List Char)) (b : List Char) : List Char :=
  match a with
  | some s => if s.isEmpty then b else s
  | none => b

/-- Python `a or b` for an optional integer argument (`None` and `0` are
    falsy). -/
def pyOrNat (a : Option ℕ) (b : ℕ) : ℕ :=
  match a with
  | some n => if n = 0 then b else n
  | none => b

/-- Python `prompt or WHISPER_INITIAL_PROMPT or None`. -/
def pyPromptChain (a : Option (List Char)) (b : List Char) : Option (List Char) :=
  match a with
  | some s => if s.isEmpty then (if b.isEmpty then none else some b) else some s
  | none => if b.isEmpty then none else some b

/-- The effective engine parameters computed at the top of
    `_transcribe_file` from the per-request overrides and the process-wide
    defaults. -/
def mkEngineCall (cfg : Config) (language prompt : Option (List Char))
    (beam : Option ℕ) : EngineCall :=
  { beam := pyOrNat beam cfg.beam_size
    language := pyOrStr language cfg.language
    prompt := pyPromptChain prompt cfg.initial_prompt }

/-- The result dictionary of `_transcribe_file`. -/
structure EngineResult where
  text : List Char
  avg_logprob : ℚ
deriving DecidableEq

/-- `"".join(seg.text for seg in segments)`. -/
def joinTexts (segs : List Seg) : List Char :=
  segs.foldr (fun s acc => s.text ++ acc) []

/-- `_transcribe_file` (one engine invocation): resolve effective
    parameters, invoke the engine, concatenate and strip the segment texts,
    deduplicate, and aggregate confidence (rounded to 4 decimal places). -/
def transcribe_file_impl (cfg : Config) (engine : Engine)
    (language prompt : Option (List Char)) (beam : Option ℕ) :
    Except Unit EngineResult :=
  match engine (mkEngineCall cfg language prompt beam) with
  | .error e => .error e
  | .ok segs =>
    .ok { text := deduplicate_text (stripWs (joinTexts segs))
          avg_logprob := round4 (avgLogprobOf segs) }

/-! ## Orchestrator (`/transcribe` and `/transcribe_file` endpoints) -/

/-- Observable side effects of one request, in order: the temporary-file
    lease being created (with the chosen suffix), engine invocations, and
    the lease release in the `finally` block (`ok` records whether the
    `os.remove` succeeded). -/
inductive Act where
  | leaseCreate (suffix : List Char)
  | engineInvoke (call : EngineCall)
  | leaseRelease (ok : Bool)
deriving DecidableEq

/-- Error payloads of the JSON error responses. -/
inductive Msg where
  | emptyBody
  | emptyFile
  | tooLarge
  | invalidContentLength
  | transcriptionFailed
deriving DecidableEq

/-- The response returned to the caller. -/
inductive Response where
  | ok (text : List Char) (confidence : ℚ)
  | err (status : ℕ) (msg : Msg)
deriving DecidableEq

/-- An inbound raw-body request: the Content-Length header (absent,
    unparsable, or a parsed integer), the body bytes, the declared content
    type, and the optional `language` / `prompt` query parameters. -/
structure Request where
  content_length : Option (Option ℤ)
  body : List UInt8
  content_type : Option (List Char)
  q_language : Option (List Char)
  q_prompt : Option (List Char)

/-- The body of the `transcribe` handler after the Content-Length header
    pre-check: size validation, lease creation, first attempt, the
    confidence-based retry escalation, and the guaranteed `finally`
    release.  A retry-attempt failure propagates to the handler's
    `except Exception` clause, yielding the 500 response. -/
def transcribeBody (cfg : Config) (req : Request) (engine : Engine)
    (removeOk : Bool) : Response × List Act :=
  if req.body.isEmpty then (.err 400 .emptyBody, [])
  else if cfg.max_body_bytes < req.body.length then (.err 413 .tooLarge, [])
  else
    let suffix := choose_suffix req.content_type none
    let call1 := mkEngineCall cfg req.q_language req.q_prompt none
    match transcribe_file_impl cfg engine req.q_language req.q_prompt none with
    | .error _ =>
      (.err 500 .transcriptionFailed,
        [.leaseCreate suffix, .engineInvoke call1, .leaseRelease removeOk])
    | .ok res1 =>
      if res1.avg_logprob < cfg.retry_logprob_threshold ∧
          ¬(stripWs res1.text).isEmpty ∧ cfg.beam_size < cfg.retry_beam_size then
        let call2 := mkEngineCall cfg req.q_language req.q_prompt (some cfg.retry_beam_size)
        match transcribe_file_impl cfg engine req.q_language req.q_prompt
            (some cfg.retry_beam_size) with
        | .error _ =>
          (.err 500 .transcriptionFailed,
            [.leaseCreate suffix, .engineInvoke call1, .engineInvoke call2,
              .leaseRelease removeOk])
        | .ok res2 =>
          let final := if res1.avg_logprob < res2.avg_logprob then res2 else res1
          (.ok final.text final.avg_logprob,
            [.leaseCreate suffix, .engineInvoke call1, .engineInvoke call2,
              .leaseRelease removeOk])
      else
        (.ok res1.text res1.avg_logprob,
          [.leaseCreate suffix, .engineInvoke call1, .leaseRelease removeOk])

/-- The `/transcribe` endpoint (`transcribe` in `whisper_server.py`):
    Content-Length header pre-check, then `transcribeBody`. -/
def transcribe (cfg : Config) (req : Request) (engine : Engine)
    (removeOk : Bool) : Response × List Act :=
  match req.content_length with
  | some none => (.err 400 .invalidContentLength, [])
  | some (some n) =>
    if (cfg.max_body_bytes : ℤ) < n then (.err 413 .tooLarge, [])
    else transcribeBody cfg req engine removeOk
  | none => transcribeBody cfg req engine removeOk

/-- An inbound multipart request for `/transcribe_file`: the uploaded file
    (bytes, declared content type, filename) plus any query parameters that
    arrive with the request. -/
structure UploadReq where
  data : List UInt8
  content_type : Option (List Char)
  filename : Option (List Char)
  q_language : Option (List Char)
  q_prompt : Option (List Char)

/-- The `/transcribe_file` endpoint (`transcribe_file` in
    `whisper_server.py`): size validation, lease, a single call to
    `_transcribe_file` with no per-request overrides, and the `finally`
    release. -/
def transcribe_file_endpoint (cfg : Config) (req : UploadReq) (engine : Engine)
    (removeOk : Bool) : Response × List Act :=
  if req.data.isEmpty then (.err 400 .emptyFile, [])
  else if cfg.max_body_bytes < req.data.length then (.err 413 .tooLarge, [])
  else
    let suffix := choose_suffix req.content_type req.filename
    let call := mkEngineCall cfg none none none
    match transcribe_file_impl cfg engine none none none with
    | .error _ =>
      (.err 500 .transcriptionFailed,
        [.leaseCreate suffix, .engineInvoke call, .leaseRelease removeOk])
    | .ok res =>
      (.ok res.text res.avg_logprob,
        [.leaseCreate suffix, .engineInvoke call, .leaseRelease removeOk])

/-! ## Trace predicates -/

/-- Is an action an engine invocation? -/
def isEngineInvoke : Act → Bool
  | .engineInvoke _ => true
  | _ => false

/-- Is an action a lease creation? -/
def isLeaseCreate : Act → Bool
  | .leaseCreate _ => true
  | _ => false

/-- Is an action a lease release? -/
def isLeaseRelease : Act → Bool
  | .leaseRelease _ => true
  | _ => false

/-- The engine invocations of a trace, in order. -/
def engineCallsOf (trace : List Act) : List EngineCall :=
  trace.filterMap (fun a => match a with | .engineInvoke c => some c | _ => none)

/-! ## Concurrency model (`transcribe_semaphore`) -/

/-- The phase of one in-flight request with respect to the admission gate:
    queued before `async with transcribe_semaphore`, inside the critical
    section (with an engine call in flight or not, and the number of engine
    calls already completed), or finished. -/
inductive Phase where
  | queued
  | inCritical (engineActive : Bool) (callsDone : ℕ)
  | finished
deriving DecidableEq

/-- Global state: available semaphore permits plus the phase of every
    request. -/
structure SysState where
  sem : ℕ
  procs : List Phase

/-- Initial state: `asyncio.Semaphore(MAX_CONCURRENT)` and `n` queued
    requests. -/
def initState (maxConcurrent n : ℕ) : SysState :=
  { sem := maxConcurrent, procs := List.replicate n .queued }

/-- Interleaving semantics of the orchestrator: a request acquires a permit
    before its first engine call, runs one or (on retry escalation) two
    strictly sequential engine calls while holding the permit, and releases
    the permit when the `async with` block exits. -/
inductive SemStep : SysState → SysState → Prop where
  | acquire (a b : List Phase) (s : ℕ) :
      SemStep ⟨s + 1, a ++ .queued :: b⟩ ⟨s, a ++ .inCritical false 0 :: b⟩
  | engineStart (a b : List Phase) (s k : ℕ) (hk : k < 2) :
      SemStep ⟨s, a ++ .inCritical false k :: b⟩ ⟨s, a ++ .inCritical true k :: b⟩
  | engineFinish (a b : List Phase) (s k : ℕ) :
      SemStep ⟨s, a ++ .inCritical true k :: b⟩ ⟨s, a ++ .inCritical false (k + 1) :: b⟩
  | release (a b : List Phase) (s k : ℕ) (hk : 1 ≤ k) :
      SemStep ⟨s, a ++ .inCritical false k :: b⟩ ⟨s + 1, a ++ .finished :: b⟩

/-- Is a request inside the admission gate? -/
def isCritical : Phase → Bool
  | .inCritical _ _ => true
  | _ => false

/-- Is a request's engine call in flight right now? -/
def isEngineActive : Phase → Bool
  | .inCritical true _ => true
  | _ => false

/-- Number of engine invocations in flight in a state. -/
def enginesInFlight (st : SysState) : ℕ :=
  st.procs.countP isEngineActive

/-! ## Specification-side definitions and concrete fixtures -/

/-- The duration-weighted mean exactly as the specification words it:
    `Σ(segment.avg_logprob × max(segment.end − segment.start, 0.01)) /
     Σ(max(segment.end − segment.start, 0.01))`. -/
def aggregateSpec (segs : List Seg) : ℚ :=
  ((segs.map fun s => s.avg_logprob * max (s.seg_end - s.seg_start) (1 / 100)).sum) /
    ((segs.map fun s => max (s.seg_end - s.seg_start) (1 / 100)).sum)

/-- The Content-Length pre-check of the `transcribe` handler passes: the
    header is absent, or it parses and does not exceed the size limit. -/
def clPasses (cfg : Config) (req : Request) : Prop :=
  req.content_length = none ∨
    ∃ n, req.content_length = some (some n) ∧ ¬((cfg.max_body_bytes : ℤ) < n)

/-- Invariant of the admission gate: available permits plus requests inside
    the critical section equal the configured worker budget. -/
def SemInv (m : ℕ) (st : SysState) : Prop :=
  st.sem + st.procs.countP isCritical = m

/-- A concrete configuration with the source defaults (25 MiB limit is
    shrunk for readability; the claims do not depend on its exact value). -/
def cfg0 : Config :=
  { max_body_bytes := 1000
    beam_size := 5
    retry_beam_size := 10
    retry_logprob_threshold := -1 / 2
    language := "en".data
    initial_prompt := "Phone call with a receptionist.".data }

/-- A concrete valid raw-body request. -/
def req0 : Request :=
  { content_length := none
    body := [0]
    content_type := some ("audio/wav".data)
    q_language := none
    q_prompt := none }

/-- A concrete empty-body request. -/
def reqEmpty : Request :=
  { content_length := none
    body := []
    content_type := some ("audio/wav".data)
    q_language := none
    q_prompt := none }

/-- A low-confidence segment. -/
def seg0 : Seg :=
  { seg_start := 0
    seg_end := 1
    avg_logprob := -1
    no_speech_prob := 0
    text := "Hello there".data }

/-- A high-confidence segment. -/
def segGood : Seg :=
  { seg_start := 0
    seg_end := 2
    avg_logprob := -1 / 10
    no_speech_prob := 0
    text := "Hello there friend".data }

/-- An engine whose first (default-beam) attempt succeeds with low
    confidence and whose escalated-beam retry raises `EngineFailure`. -/
def engineRetryFails : Engine :=
  fun c => if c.beam = 10 then .error () else .ok [seg0]

/-- An engine whose first attempt has low confidence and whose
    escalated-beam retry succeeds with higher confidence. -/
def engineBothOk : Engine :=
  fun c => if c.beam = 10 then .ok [segGood] else .ok [seg0]

/-- A concrete multipart upload. -/
def upload0 : UploadReq :=
  { data := [0]
    content_type := some ("audio/wav".data)
    filename := some ("call.wav".data)
    q_language := none
    q_prompt := none }

/-! ## Lemmas about the pass-1 matcher -/

theorem ciStrip_length :
    ∀ (g r e : List Char), ciStrip g r = some e → e.length + g.length = r.length := by
  intro g
  induction g with
  | nil =>
    intro r e h
    simp only [ciStrip, Option.some.injEq] at h
    simp [h]
  | cons a g ih =>
    intro r e h
    cases r with
    | nil => simp [ciStrip] at h
    | cons b r =>
      simp only [ciStrip] at h
      by_cases hc : a.toLower = b.toLower
      · rw [if_pos hc] at h
        have := ih r e h
        simp only [List.length_cons]
        omega
      · rw [if_neg hc] at h
        cases h

theorem ciStrip_of_ciEq :
    ∀ (g g' b : List Char), lowerStr g = lowerStr g' → ciStrip g (g' ++ b) = some b := by
  intro g
  induction g with
  | nil =>
    intro g' b h
    have hg : g' = [] := by
      have := h.symm
      simpa [lowerStr] using this
    simp [hg, ciStrip]
  | cons a g ih =>
    intro g' b h
    cases g' with
    | nil => simp [lowerStr] at h
    | cons c g' =>
      simp only [lowerStr, List.map_cons, List.cons.injEq] at h
      obtain ⟨h1, h2⟩ := h
      simp only [List.cons_append, ciStrip]
      rw [if_pos h1]
      exact ih g' b (by simpa [lowerStr] using h2)

theorem plusRepF_sound :
    ∀ (fuel : ℕ) (a : Char) (g r e : List Char),
      plusRepF fuel a g r = some e → e.length + (g.length + 1) ≤ r.length := by
  intro fuel
  induction fuel with
  | zero => intro a g r e h; simp [plusRepF] at h
  | succ fuel ih =>
    intro a g r e h
    cases hc : ciStrip (a :: g) r with
    | none => simp [plusRepF, hc] at h
    | some r1 =>
      simp only [plusRepF, hc] at h
      have hlen := ciStrip_length (a :: g) r r1 hc
      simp only [List.length_cons] at hlen
      have hdw : (r1.dropWhile isPySpace).length ≤ r1.length :=
        (List.dropWhile_sublist isPySpace).length_le
      cases hp : plusRepF fuel a g (r1.dropWhile isPySpace) with
      | some e2 =>
        rw [hp] at h
        have hrec := ih a g (r1.dropWhile isPySpace) e2 hp
        simp only [Option.some.injEq] at h
        subst h
        omega
      | none =>
        rw [hp] at h
        simp only [Option.some.injEq] at h
        subst h
        omega

theorem plusRepF_isSome :
    ∀ (fuel : ℕ) (a : Char) (g r r1 : List Char),
      ciStrip (a :: g) r = some r1 → (plusRepF (fuel + 1) a g r).isSome = true := by
  intro fuel a g r r1 hc
  simp only [plusRepF, hc]
  cases hp : plusRepF fuel a g (r1.dropWhile isPySpace) <;> simp

theorem wsTailGo_sound :
    ∀ (bound : ℕ) (a : Char) (g r e : List Char),
      wsTailGo a g r bound = some e → e.length + (g.length + 1) ≤ r.length := by
  intro bound
  induction bound with
  | zero =>
    intro a g r e h
    simp only [wsTailGo] at h
    exact plusRepF_sound _ a g r e h
  | succ k ih =>
    intro a g r e h
    simp only [wsTailGo] at h
    cases hp : plusRepF (r.length + 1) a g (r.drop (k + 1)) with
    | some e2 =>
      rw [hp] at h
      have h1 := plusRepF_sound _ a g _ e2 hp
      have h2 : (r.drop (k + 1)).length ≤ r.length := by
        rw [List.length_drop]
        omega
      simp only [Option.some.injEq] at h
      subst h
      omega
    | none =>
      rw [hp] at h
      exact ih a g r e h

theorem wsTailGo_complete :
    ∀ (bound k : ℕ) (a : Char) (g r r1 : List Char), k ≤ bound →
      ciStrip (a :: g) (r.drop k) = some r1 → (wsTailGo a g r bound).isSome = true := by
  intro bound
  induction bound with
  | zero =>
    intro k a g r r1 hk hc
    have hk0 : k = 0 := by omega
    subst hk0
    rw [List.drop_zero] at hc
    simp only [wsTailGo]
    exact plusRepF_isSome r.length a g r r1 hc
  | succ b ih =>
    intro k a g r r1 hk hc
    cases hp : plusRepF (r.length + 1) a g (r.drop (b + 1)) with
    | some e => simp [wsTailGo, hp]
    | none =>
      simp only [wsTailGo, hp]
      by_cases hkb : k = b + 1
      · exfalso
        subst hkb
        have := plusRepF_isSome r.length a g (r.drop (b + 1)) r1 hc
        rw [hp] at this
        simp at this
      · exact ih k a g r r1 (by omega) hc

theorem groupTryAt_sound :
    ∀ (s : List Char) (L : ℕ), L ≤ s.length → ∀ p, groupTryAt s L = some p →
      p.1 = s.take L ∧ p.1.length = L ∧ 2 * L + p.2.length ≤ s.length := by
  intro s L hL p h
  cases ht : s.take L with
  | nil => simp [groupTryAt, ht] at h
  | cons a g =>
    simp only [groupTryAt, ht] at h
    by_cases hall : ((a :: g).all fun c => c != '\n') = true
    · rw [if_pos hall] at h
      cases hw : wsTail a g (s.drop L) with
      | none => rw [hw] at h; simp at h
      | some rest =>
        rw [hw] at h
        simp only [Option.map_some', Option.some.injEq] at h
        subst h
        have hlen : g.length + 1 = L := by
          have h2 : (s.take L).length = L := by
            rw [List.length_take]
            omega
          rw [ht] at h2
          simp only [List.length_cons] at h2
          omega
        have hsound : rest.length + (g.length + 1) ≤ (s.drop L).length := by
          have hw2 := hw
          simp only [wsTail] at hw2
          exact wsTailGo_sound _ a g (s.drop L) rest hw2
        have hd : (s.drop L).length = s.length - L := List.length_drop L s
        refine ⟨rfl, ?_, ?_⟩
        · show (a :: g).length = L
          simp only [List.length_cons]
          omega
        · show 2 * L + rest.length ≤ s.length
          omega
    · rw [if_neg hall] at h
      cases h

theorem tryLens_sound :
    ∀ (fuel : ℕ) (s : List Char) (L : ℕ), 8 ≤ L → ∀ p, tryLens s fuel L = some p →
      8 ≤ p.1.length ∧ 2 * p.1.length + p.2.length ≤ s.length := by
  intro fuel
  induction fuel with
  | zero => intro s L h8 p h; simp [tryLens] at h
  | succ fuel ih =>
    intro s L h8 p h
    simp only [tryLens] at h
    by_cases hL : L ≤ s.length
    · rw [if_pos hL] at h
      cases hg : groupTryAt s L with
      | some res =>
        rw [hg] at h
        simp only [Option.some.injEq] at h
        subst h
        obtain ⟨h1, hlen, hb⟩ := groupTryAt_sound s L hL res hg
        refine ⟨by omega, by omega⟩
      | none =>
        rw [hg] at h
        exact ih s (L + 1) (by omega) p h
    · rw [if_neg hL] at h
      cases h

theorem tryLens_complete :
    ∀ (fuel : ℕ) (s : List Char) (L L0 : ℕ), L ≤ L0 → L0 ≤ s.length →
      s.length + 1 - L ≤ fuel → (groupTryAt s L0).isSome = true →
      (tryLens s fuel L).isSome = true := by
  intro fuel
  induction fuel with
  | zero => intro s L L0 h1 h2 h3 h4; omega
  | succ fuel ih =>
    intro s L L0 h1 h2 h3 h4
    have hL : L ≤ s.length := le_trans h1 h2
    simp only [tryLens, if_pos hL]
    cases hg : groupTryAt s L with
    | some res => simp
    | none =>
      have hne : L ≠ L0 := by
        intro he
        subst he
        rw [hg] at h4
        simp at h4
      simp only [hg]
      exact ih s (L + 1) L0 (by omega) h2 (by omega) h4

theorem matchHere_sound :
    ∀ (s : List Char) (p : List Char × List Char), matchHere s = some p →
      8 ≤ p.1.length ∧ 2 * p.1.length + p.2.length ≤ s.length := by
  intro s p h
  exact tryLens_sound _ s 8 (le_refl 8) p h

theorem takeWhile_ws_bound :
    ∀ (w x : List Char), (∀ c ∈ w, isPySpace c = true) →
      w.length ≤ ((w ++ x).takeWhile isPySpace).length := by
  intro w
  induction w with
  | nil => intro x _; simp
  | cons c w ih =>
    intro x hw
    have hc : isPySpace c = true := hw c (by simp)
    have hrec := ih x (fun d hd => hw d (by simp [hd]))
    simp only [List.cons_append, List.takeWhile_cons, hc, if_true, List.length_cons]
    omega

theorem matchHere_complete :
    ∀ (s g w g' b : List Char), s = g ++ (w ++ (g' ++ b)) → 8 ≤ g.length →
      (∀ c ∈ g, ¬(c = '\n')) → (∀ c ∈ w, isPySpace c = true) →
      lowerStr g = lowerStr g' → (matchHere s).isSome = true := by
  intro s g w g' b hs h8 hnl hw hci
  have hsl : g.length ≤ s.length := by
    rw [hs]
    simp [List.length_append]
  apply tryLens_complete _ s 8 g.length h8 hsl (by omega)
  have htake : s.take g.length = g := by
    rw [hs]
    exact List.take_left g _
  have hdrop : s.drop g.length = w ++ (g' ++ b) := by
    rw [hs]
    exact List.drop_left g _
  cases g with
  | nil => simp at h8
  | cons a g1 =>
    simp only [groupTryAt, htake]
    have hall : ((a :: g1).all fun c => c != '\n') = true := by
      rw [List.all_eq_true]
      intro c hc
      simpa using hnl c hc
    rw [if_pos hall, Option.isSome_map']
    simp only [wsTail]
    refine wsTailGo_complete _ w.length a g1 (s.drop (a :: g1).length) b ?_ ?_
    · rw [hdrop]
      exact takeWhile_ws_bound w (g' ++ b) hw
    · rw [hdrop, List.drop_left w (g' ++ b)]
      exact ciStrip_of_ciEq (a :: g1) g' b hci

theorem subF_le :
    ∀ (fuel : ℕ) (s : List Char), (subRepeatsF fuel s).length ≤ s.length := by
  intro fuel
  induction fuel with
  | zero => intro s; simp [subRepeatsF]
  | succ fuel ih =>
    intro s
    simp only [subRepeatsF]
    cases hm : matchHere s with
    | some p =>
      obtain ⟨g, rest⟩ := p
      obtain ⟨h8, hb⟩ := matchHere_sound s (g, rest) hm
      have h8' : 8 ≤ g.length := h8
      have hb' : 2 * g.length + rest.length ≤ s.length := hb
      have hrec := ih rest
      show (g ++ subRepeatsF fuel rest).length ≤ s.length
      rw [List.length_append]
      omega
    | none =>
      cases s with
      | nil => simp
      | cons c t =>
        have hrec := ih t
        show (c :: subRepeatsF fuel t).length ≤ (c :: t).length
        simp only [List.length_cons]
        omega

theorem subF_progress :
    ∀ (a : List Char) (fuel : ℕ) (s g w g' b : List Char),
      s = a ++ (g ++ (w ++ (g' ++ b))) → s.length ≤ fuel → 8 ≤ g.length →
      (∀ c ∈ g, ¬(c = '\n')) → (∀ c ∈ w, isPySpace c = true) →
      lowerStr g = lowerStr g' →
      (subRepeatsF fuel s).length < s.length := by
  intro a
  induction a with
  | nil =>
    intro fuel s g w g' b hs hf h8 hnl hw hci
    have hsl : 8 ≤ s.length := by
      rw [hs]
      simp only [List.nil_append, List.length_append]
      omega
    cases fuel with
    | zero => omega
    | succ f =>
      simp only [subRepeatsF]
      cases hm : matchHere s with
      | none =>
        exfalso
        have hcomp := matchHere_complete s g w g' b (by rw [hs, List.nil_append]) h8 hnl hw hci
        rw [hm] at hcomp
        simp at hcomp
      | some p =>
        obtain ⟨pg, pr⟩ := p
        obtain ⟨h8p, hb⟩ := matchHere_sound s (pg, pr) hm
        have h8p' : 8 ≤ pg.length := h8p
        have hb' : 2 * pg.length + pr.length ≤ s.length := hb
        have hle := subF_le f pr
        show (pg ++ subRepeatsF f pr).length < s.length
        rw [List.length_append]
        omega
  | cons c a ih =>
    intro fuel s g w g' b hs hf h8 hnl hw hci
    have hsl : 1 ≤ s.length := by
      rw [hs]
      simp
    cases fuel with
    | zero => omega
    | succ f =>
      simp only [subRepeatsF]
      cases hm : matchHere s with
      | some p =>
        obtain ⟨pg, pr⟩ := p
        obtain ⟨h8p, hb⟩ := matchHere_sound s (pg, pr) hm
        have h8p' : 8 ≤ pg.length := h8p
        have hb' : 2 * pg.length + pr.length ≤ s.length := hb
        have hle := subF_le f pr
        show (pg ++ subRepeatsF f pr).length < s.length
        rw [List.length_append]
        omega
      | none =>
        have hcons : s = c :: (a ++ (g ++ (w ++ (g' ++ b)))) := by
          rw [hs, List.cons_append]
        subst hs
        have hrec := ih f (a ++ (g ++ (w ++ (g' ++ b)))) g w g' b rfl
          (by simp only [List.cons_append, List.length_cons] at hf ⊢; omega)
          h8 hnl hw hci
        show ((c :: a ++ (g ++ (w ++ (g' ++ b)))) : List Char).length >
          (match (c :: a ++ (g ++ (w ++ (g' ++ b))) : List Char) with
            | [] => ([] : List Char)
            | c :: t => c :: subRepeatsF f t).length
        simp only [List.cons_append, List.length_cons]
        omega

/-! ## Lemmas about stripping, splitting and joining -/

theorem dropWhile_head_false :
    ∀ (p : Char → Bool) (l : List Char) (c : Char) (t : List Char),
      l.dropWhile p = c :: t → p c = false := by
  intro p l
  induction l with
  | nil => intro c t h; simp at h
  | cons d l ih =>
    intro c t h
    by_cases hd : p d = true
    · rw [List.dropWhile_cons_of_pos hd] at h
      exact ih c t h
    · rw [List.dropWhile_cons_of_neg hd] at h
      injection h with h1 h2
      subst h1
      simpa using hd

theorem rtrim_prefix (p : Char → Bool) (x : List Char) :
    (x.reverse.dropWhile p).reverse <+: x := by
  have h : x.reverse.dropWhile p <:+ x.reverse := List.dropWhile_suffix p
  have h2 : ((x.reverse.dropWhile p).reverse).reverse <:+ x.reverse := by
    rw [List.reverse_reverse]
    exact h
  exact List.reverse_suffix.mp h2

theorem stripWs_head_false :
    ∀ (l : List Char) (c : Char) (t : List Char),
      stripWs l = c :: t → isPySpace c = false := by
  intro l c t h
  have hpre : stripWs l <+: l.dropWhile isPySpace :=
    rtrim_prefix isPySpace (l.dropWhile isPySpace)
  rw [h] at hpre
  obtain ⟨z, hz⟩ := hpre
  rw [List.cons_append] at hz
  exact dropWhile_head_false isPySpace l c (t ++ z) hz.symm

theorem stripWs_ne_nil_of_head (c : Char) (t : List Char) (hc : isPySpace c = false) :
    stripWs (c :: t) ≠ [] := by
  intro h
  simp only [stripWs] at h
  have h1 : (c :: t).dropWhile isPySpace = c :: t :=
    List.dropWhile_cons_of_neg (by simp [hc])
  rw [h1] at h
  have h2 : (c :: t).reverse.dropWhile isPySpace = [] := by
    have := congrArg List.reverse h
    simpa using this
  rw [List.dropWhile_eq_nil_iff] at h2
  have := h2 c (by simp)
  simp [hc] at this

theorem goSplitF_first :
    ∀ (fuel : ℕ) (cur rest : List Char),
      ∃ u ps, goSplitF fuel cur rest = (cur.reverse ++ u) :: ps := by
  intro fuel
  induction fuel with
  | zero =>
    intro cur rest
    exact ⟨rest, [], rfl⟩
  | succ fuel ih =>
    intro cur rest
    cases rest with
    | nil => exact ⟨[], [], by simp [goSplitF]⟩
    | cons c t =>
      simp only [goSplitF]
      by_cases hsp : (isPySpace c && headIsPunct cur) = true
      · rw [if_pos hsp]
        exact ⟨[], goSplitF fuel [] (t.dropWhile isPySpace), by simp⟩
      · rw [if_neg hsp]
        obtain ⟨u, ps, hu⟩ := ih (c :: cur) t
        refine ⟨c :: u, ps, ?_⟩
        rw [hu]
        simp [List.reverse_cons, List.append_assoc]

theorem splitSentences_cons :
    ∀ (c : Char) (t : List Char), ∃ u ps, splitSentences (c :: t) = (c :: u) :: ps := by
  intro c t
  have h1 : splitSentences (c :: t) = goSplitF t.length [c] t := by
    simp [splitSentences, goSplitF, headIsPunct]
  obtain ⟨u, ps, hu⟩ := goSplitF_first t.length [c] t
  refine ⟨u, ps, ?_⟩
  rw [h1, hu]
  simp

theorem joinSpace_head :
    ∀ (c : Char) (u : List Char) (ps : List (List Char)),
      ∃ z, joinSpace ((c :: u) :: ps) = c :: z := by
  intro c u ps
  cases ps with
  | nil => exact ⟨u, rfl⟩
  | cons q ps => exact ⟨u ++ ' ' :: joinSpace (q :: ps), rfl⟩

theorem pass2_head_false (s2 : List Char) (v : List Char) (hs2 : s2 = stripWs v)
    (c : Char) (t : List Char)
    (h : (if (splitSentences s2).length ≤ 1 then s2
          else match splitSentences s2 with
            | [] => s2
            | first :: restS => joinSpace (first :: restS.filter (keepSentence first)))
       = c :: t) :
    isPySpace c = false := by
  have hstrip : ∀ (d : Char) (u : List Char), s2 = d :: u → isPySpace d = false := by
    intro d u hdu
    rw [hs2] at hdu
    exact stripWs_head_false v d u hdu
  by_cases h1 : (splitSentences s2).length ≤ 1
  · rw [if_pos h1] at h
    exact hstrip c t h
  · rw [if_neg h1] at h
    cases hsp : splitSentences s2 with
    | nil =>
      rw [hsp] at h
      exact hstrip c t h
    | cons first restS =>
      rw [hsp] at h
      cases hstr : s2 with
      | nil =>
        exfalso
        rw [hstr] at hsp
        simp [splitSentences, goSplitF] at hsp
        rw [hstr] at h1
        simp [splitSentences, goSplitF] at h1
      | cons d u =>
        have hd : isPySpace d = false := hstrip d u hstr
        obtain ⟨u2, ps2, hsp2⟩ := splitSentences_cons d u
        rw [hstr, hsp2] at hsp
        injection hsp with hf hr
        subst hf
        have h2 : joinSpace ((d :: u2) :: restS.filter (keepSentence (d :: u2))) = c :: t := h
        obtain ⟨z, hz⟩ := joinSpace_head d u2 (restS.filter (keepSentence (d :: u2)))
        rw [hz] at h2
        injection h2 with hc _
        rw [← hc]
        exact hd

theorem dedup_head_false (y : List Char) (c : Char) (t : List Char)
    (h : deduplicate_text y = c :: t) : isPySpace c = false := by
  simp only [deduplicate_text] at h
  by_cases h0 : (stripWs y).isEmpty
  · rw [if_pos h0] at h
    rw [List.isEmpty_iff] at h0
    rw [h0] at h
    cases h
  · rw [if_neg h0] at h
    by_cases he : subRepeats (stripWs y) = stripWs y
    · rw [if_pos he] at h
      exact pass2_head_false (stripWs y) y rfl c t h
    · rw [if_neg he] at h
      exact pass2_head_false (stripWs (subRepeats (stripWs y)))
        (subRepeats (stripWs y)) rfl c t h

theorem dedup_strip_empty_iff (y : List Char) :
    stripWs (deduplicate_text y) = [] ↔ deduplicate_text y = [] := by
  constructor
  · intro h
    cases hd : deduplicate_text y with
    | nil => rfl
    | cons c t =>
      exfalso
      have hc := dedup_head_false y c t hd
      have hne := stripWs_ne_nil_of_head c t hc
      rw [hd] at h
      exact hne h
  · intro h
    rw [h]
    rfl

theorem stripWs_length_le (l : List Char) : (stripWs l).length ≤ l.length := by
  simp only [stripWs, List.length_reverse]
  have h1 : ((l.dropWhile isPySpace).reverse.dropWhile isPySpace).length ≤
      (l.dropWhile isPySpace).reverse.length :=
    (List.dropWhile_sublist isPySpace).length_le
  have h2 : (l.dropWhile isPySpace).length ≤ l.length :=
    (List.dropWhile_sublist isPySpace).length_le
  simp only [List.length_reverse] at h1
  omega

theorem goSplitF_sum :
    ∀ (fuel : ℕ) (cur rest : List Char),
      ((goSplitF fuel cur rest).map List.length).sum + (goSplitF fuel cur rest).length ≤
        cur.length + rest.length + 1 := by
  intro fuel
  induction fuel with
  | zero =>
    intro cur rest
    simp [goSplitF]
  | succ fuel ih =>
    intro cur rest
    cases rest with
    | nil => simp [goSplitF]
    | cons c t =>
      simp only [goSplitF]
      by_cases hsp : (isPySpace c && headIsPunct cur) = true
      · rw [if_pos hsp]
        have hrec := ih [] (t.dropWhile isPySpace)
        have hdw : (t.dropWhile isPySpace).length ≤ t.length :=
          (List.dropWhile_sublist isPySpace).length_le
        simp only [List.map_cons, List.sum_cons, List.length_cons, List.length_reverse,
          List.length_nil] at hrec ⊢
        omega
      · rw [if_neg hsp]
        have hrec := ih (c :: cur) t
        simp only [List.length_cons] at hrec ⊢
        omega

theorem joinSpace_length :
    ∀ (ps : List (List Char)) (p : List Char),
      (joinSpace (p :: ps)).length + 1 = ((p :: ps).map List.length).sum + (p :: ps).length := by
  intro ps
  induction ps with
  | nil => intro p; simp [joinSpace]
  | cons q ps ih =>
    intro p
    have hstep : joinSpace (p :: q :: ps) = p ++ ' ' :: joinSpace (q :: ps) := rfl
    rw [hstep]
    have hrec := ih q
    simp only [List.length_append, List.length_cons, List.map_cons, List.sum_cons] at hrec ⊢
    omega

theorem sublist_sum_lens_le (P Q : List (List Char)) (h : List.Sublist P Q) :
    (P.map List.length).sum ≤ (Q.map List.length).sum :=
  List.Sublist.sum_le_sum (h.map List.length) (by simp)

theorem dedup_length_le (y : List Char) : (deduplicate_text y).length ≤ y.length := by
  simp only [deduplicate_text]
  by_cases h0 : (stripWs y).isEmpty
  · rw [if_pos h0]
    exact stripWs_length_le y
  · rw [if_neg h0]
    have hs2 : (if subRepeats (stripWs y) = stripWs y then stripWs y
        else stripWs (subRepeats (stripWs y))).length ≤ y.length := by
      by_cases he : subRepeats (stripWs y) = stripWs y
      · rw [if_pos he]
        exact stripWs_length_le y
      · rw [if_neg he]
        have h1 := stripWs_length_le (subRepeats (stripWs y))
        have h2 : (subRepeats (stripWs y)).length ≤ (stripWs y).length :=
          subF_le ((stripWs y).length + 1) (stripWs y)
        have h3 := stripWs_length_le y
        omega
    generalize hS2 : (if subRepeats (stripWs y) = stripWs y then stripWs y
        else stripWs (subRepeats (stripWs y))) = S2 at hs2 ⊢
    by_cases h1 : (splitSentences S2).length ≤ 1
    · rw [if_pos h1]
      exact hs2
    · rw [if_neg h1]
      cases hsp : splitSentences S2 with
      | nil =>
        show S2.length ≤ y.length
        exact hs2
      | cons first restS =>
        show (joinSpace (first :: restS.filter (keepSentence first))).length ≤ y.length
        have hsub : List.Sublist (first :: restS.filter (keepSentence first)) (first :: restS) :=
          List.Sublist.cons₂ first (List.filter_sublist restS)
        have hsum := sublist_sum_lens_le _ _ hsub
        have hcnt := hsub.length_le
        have hjoin := joinSpace_length (restS.filter (keepSentence first)) first
        have hsplit := goSplitF_sum S2.length [] S2
        have hsp2 : goSplitF S2.length [] S2 = first :: restS := by
          rw [show goSplitF S2.length [] S2 = splitSentences S2 from rfl, hsp]
        rw [hsp2] at hsplit
        simp only [List.length_nil] at hsplit
        omega

/-! ## Lemmas about the confidence aggregator -/

theorem aggLoop_eq :
    ∀ (segs : List Seg) (w d : ℚ),
      aggLoop segs (w, d) =
        (w + (segs.map fun s => s.avg_logprob * segWeight s).sum,
         d + (segs.map segWeight).sum) := by
  intro segs
  induction segs with
  | nil => intro w d; simp [aggLoop]
  | cons s t ih =>
    intro w d
    simp only [aggLoop, List.map_cons, List.sum_cons]
    rw [ih]
    refine Prod.ext ?_ ?_ <;> simp <;> ring

theorem segWeight_pos (s : Seg) : 0 < segWeight s :=
  lt_of_lt_of_le (by norm_num) (le_max_right _ _)

theorem weights_sum_pos (s : Seg) (t : List Seg) :
    0 < ((s :: t).map segWeight).sum := by
  simp only [List.map_cons, List.sum_cons]
  have h1 : 0 < segWeight s := segWeight_pos s
  have h2 : 0 ≤ (t.map segWeight).sum := by
    apply List.sum_nonneg
    intro x hx
    obtain ⟨u, _, hu⟩ := List.mem_map.mp hx
    rw [← hu]
    exact le_of_lt (segWeight_pos u)
  linarith

/-! ## Lemmas about the orchestrator -/

theorem transcribe_eq_body (cfg : Config) (req : Request) (engine : Engine)
    (removeOk : Bool) (h : clPasses cfg req) :
    transcribe cfg req engine removeOk = transcribeBody cfg req engine removeOk := by
  rcases h with h | ⟨n, hn, hle⟩
  · simp [transcribe, h]
  · simp [transcribe, hn, hle]

theorem transcribe_file_impl_ok_inv (cfg : Config) (engine : Engine)
    (l p : Option (List Char)) (b : Option ℕ) (res : EngineResult)
    (h : transcribe_file_impl cfg engine l p b = .ok res) :
    ∃ segs, engine (mkEngineCall cfg l p b) = .ok segs ∧
      res = ⟨deduplicate_text (stripWs (joinTexts segs)), round4 (avgLogprobOf segs)⟩ := by
  simp only [transcribe_file_impl] at h
  cases he : engine (mkEngineCall cfg l p b) with
  | error e => rw [he] at h; cases h
  | ok segs =>
    rw [he] at h
    simp only [Except.ok.injEq] at h
    exact ⟨segs, rfl, h.symm⟩

theorem countEngine_three (s : List Char) (c : EngineCall) (r : Bool) :
    ([Act.leaseCreate s, Act.engineInvoke c, Act.leaseRelease r]).countP isEngineInvoke
      = 1 := rfl

theorem countEngine_four (s : List Char) (c c2 : EngineCall) (r : Bool) :
    ([Act.leaseCreate s, Act.engineInvoke c, Act.engineInvoke c2,
        Act.leaseRelease r]).countP isEngineInvoke = 2 := rfl

/-! ## Lemmas about the admission gate -/

theorem semStep_inv (m : ℕ) (st st' : SysState) (hstep : SemStep st st')
    (hinv : SemInv m st) : SemInv m st' := by
  cases hstep with
  | acquire a b s =>
    simp [SemInv, List.countP_append, List.countP_cons, isCritical] at hinv ⊢
    omega
  | engineStart a b s k hk =>
    simp [SemInv, List.countP_append, List.countP_cons, isCritical] at hinv ⊢
    omega
  | engineFinish a b s k =>
    simp [SemInv, List.countP_append, List.countP_cons, isCritical] at hinv ⊢
    omega
  | release a b s k hk =>
    simp [SemInv, List.countP_append, List.countP_cons, isCritical] at hinv ⊢
    omega

theorem reachable_inv (m : ℕ) (s0 st : SysState)
    (h : Relation.ReflTransGen SemStep s0 st) (h0 : SemInv m s0) : SemInv m st := by
  induction h with
  | refl => exact h0
  | tail hsteps hstep ih => exact semStep_inv m _ _ hstep ih

theorem countP_engine_le_critical :
    ∀ (procs : List Phase), procs.countP isEngineActive ≤ procs.countP isCritical := by
  intro procs
  induction procs with
  | nil => simp
  | cons p t ih =>
    simp only [List.countP_cons]
    cases p with
    | queued => simp [isEngineActive, isCritical]; omega
    | inCritical e k => cases e <;> simp [isEngineActive, isCritical] <;> omega
    | finished => simp [isEngineActive, isCritical]; omega

/-! ## Claim theorems -/

/-- C3: for every ordered sequence of segments the confidence aggregator of
    `_transcribe_file` returns the duration-weighted mean
    `Σ(avg_logprob × max(end − start, 0.01)) / Σ(max(end − start, 0.01))`,
    and for the empty sequence it returns the sentinel `-1.0` instead of
    failing. -/
theorem confidence_aggregator_weighted_mean (segs : List Seg) :
    avgLogprobOf segs = if segs = [] then -1 else aggregateSpec segs := by
  cases segs with
  | nil => simp [avgLogprobOf, aggLoop]
  | cons s t =>
    have hpos := weights_sum_pos s t
    simp only [avgLogprobOf, aggLoop_eq, zero_add]
    rw [if_pos hpos, if_neg (by simp)]
    rfl

/-- C9: in the interleaving model of the admission gate
    (`transcribe_semaphore`), every state reachable from the initial state
    with worker budget `m` has at most `m` engine invocations in flight,
    uniformly over requests that make one or two engine calls. -/
theorem admission_gate_bound (m n : ℕ) (st : SysState)
    (h : Relation.ReflTransGen SemStep (initState m n) st) :
    enginesInFlight st ≤ m := by
  have h0 : SemInv m (initState m n) := by
    simp only [SemInv, initState]
    have hz : (List.replicate n Phase.queued).countP isCritical = 0 := by
      rw [List.countP_eq_zero]
      intro a ha
      rw [List.eq_of_mem_replicate ha]
      simp [isCritical]
    rw [hz]
    omega
  have hinv := reachable_inv m _ st h h0
  have hle := countP_engine_le_critical st.procs
  simp only [SemInv] at hinv
  simp only [enginesInFlight]
  omega

/-- Witness for C9: with worker budget 2 and 5 queued requests, after one
    request is admitted the bound 2 holds at the reached state. -/
theorem admission_gate_bound_witness :
    enginesInFlight ⟨1, [] ++ Phase.inCritical false 0 :: List.replicate 4 Phase.queued⟩ ≤ 2 :=
  admission_gate_bound 2 5 _
    (Relation.ReflTransGen.single (SemStep.acquire [] (List.replicate 4 Phase.queued) 1))

/-- C5 counterexample: the hallucination deduplicator is not idempotent.
    On `"A1234567812345678A1234567812345678"` one application yields
    `"A1234567812345678"` (the 17-character unit collapsed), and a second
    application collapses the newly adjacent repeat of `"12345678"` to
    `"A12345678"`, so `dedup (dedup x) ≠ dedup x`. -/
theorem dedup_idempotence_cex :
    deduplicate_text (deduplicate_text ("A1234567812345678A1234567812345678".data)) ≠
      deduplicate_text ("A1234567812345678A1234567812345678".data) := by
  decide

/-- C5 amended: deduplication is not idempotent (a second application can
    strictly shrink the result further, see the counterexample); what holds
    is that every application is length non-increasing, so iterating the
    deduplicator is monotonically contracting. -/
theorem dedup_iteration_contracts (x : List Char) :
    (deduplicate_text (deduplicate_text x)).length ≤ (deduplicate_text x).length ∧
      (deduplicate_text x).length ≤ x.length :=
  ⟨dedup_length_le (deduplicate_text x), dedup_length_le x⟩

/-- C6 counterexample: pass 1 does not collapse repeats separated by
    punctuation.  `"ABCDEFGH,ABCDEFGH"` contains the 8-character substring
    `"ABCDEFGH"` repeated twice separated by a comma, yet pass 1 (the
    `re.sub` with separator `\s*`) leaves the text unchanged. -/
theorem pass1_punct_separator_cex :
    subRepeats ("ABCDEFGH".data ++ ',' :: "ABCDEFGH".data) =
        "ABCDEFGH".data ++ ',' :: "ABCDEFGH".data ∧
      8 ≤ ("ABCDEFGH".data).length := by
  exact ⟨by decide, by decide⟩

/-- C6 amended: pass 1 collapses consecutive repeats whose separator is
    whitespace only (not punctuation): whenever the text contains a
    newline-free substring of length ≥ 8 immediately followed — up to case
    and an optional whitespace run — by another copy of itself, the pass
    rewrites that repetition to a single occurrence and hence strictly
    shortens the text. -/
theorem pass1_collapses_ws_separated_repeats (a g w g' b : List Char)
    (h8 : 8 ≤ g.length) (hnl : ∀ c ∈ g, ¬(c = '\n'))
    (hw : ∀ c ∈ w, isPySpace c = true) (hci : lowerStr g = lowerStr g') :
    (subRepeats (a ++ (g ++ (w ++ (g' ++ b))))).length <
      (a ++ (g ++ (w ++ (g' ++ b)))).length :=
  subF_progress a ((a ++ (g ++ (w ++ (g' ++ b)))).length + 1)
    (a ++ (g ++ (w ++ (g' ++ b)))) g w g' b rfl (by omega) h8 hnl hw hci

/-- Witness for C6: `"ABCDEFGH abcdefgh"` (a case-insensitive repeat with a
    whitespace separator) is strictly shortened by pass 1. -/
theorem pass1_collapses_ws_separated_repeats_witness :
    8 ≤ ("ABCDEFGH".data).length ∧
      (∀ c ∈ ("ABCDEFGH".data), ¬(c = '\n')) ∧
      (∀ c ∈ ([' '] : List Char), isPySpace c = true) ∧
      lowerStr ("ABCDEFGH".data) = lowerStr ("abcdefgh".data) ∧
      (subRepeats (([] : List Char) ++
          ("ABCDEFGH".data ++ ([' '] ++ ("abcdefgh".data ++ []))))).length <
        (([] : List Char) ++ ("ABCDEFGH".data ++ ([' '] ++ ("abcdefgh".data ++ [])))).length :=
  ⟨by decide, by decide, by decide, by decide,
    pass1_collapses_ws_separated_repeats [] ("ABCDEFGH".data) [' '] ("abcdefgh".data) []
      (by decide) (by decide) (by decide) (by decide)⟩

/-- C4 counterexample: the claimed content-type resolution set includes
    `m4a`, but `_choose_suffix` has no `m4a` content-type branch: with no
    filename and declared content type `"audio/m4a"` (which contains the
    substring `"m4a"`), the sniffer falls through to the `wav` default
    instead of returning `m4a`. -/
theorem format_sniffer_m4a_cex :
    choose_suffix (some ("audio/m4a".data)) none = ".wav".data ∧
      ".wav".data ≠ ".m4a".data := by
  exact ⟨by decide, by decide⟩

/-- C4 amended: the sniffer never fails (always returns one of the six
    tags); a non-empty filename whose lower-cased extension is in
    {wav, webm, mp3, m4a, ogg, flac} always wins; the content-type
    substring match covers only {wav, webm, mpeg, mp3, ogg, flac} (with
    `mpeg` mapped to `mp3`, and `m4a` recognized only via the filename
    extension); otherwise the result defaults to `wav`.  The claim's three
    examples hold as stated. -/
theorem format_sniffer_resolution :
    (∀ ct fn, choose_suffix ct fn ∈ recognizedSuffixes) ∧
      (∀ ct f, f ≠ [] → lowerStr (dotSuffix (lastComponent f)) ∈ recognizedSuffixes →
        choose_suffix ct (some f) = lowerStr (dotSuffix (lastComponent f))) ∧
      choose_suffix (some ("application/octet-stream".data)) (some ("call.ogg".data)) =
        ".ogg".data ∧
      choose_suffix (some ("audio/webm;codecs=opus".data)) none = ".webm".data ∧
      choose_suffix (some ("application/octet-stream".data)) none = ".wav".data ∧
      choose_suffix none none = ".wav".data ∧
      choose_suffix (some ("audio/mpeg".data)) none = ".mp3".data ∧
      choose_suffix (some ("audio/m4a".data)) none = ".wav".data := by
  refine ⟨?_, ?_, by decide, by decide, by decide, by decide, by decide, by decide⟩
  · intro ct fn
    cases fn with
    | none =>
      simp only [choose_suffix]
      split_ifs <;> decide
    | some f =>
      simp only [choose_suffix]
      by_cases hfe : (!f.isEmpty) = true
      · rw [if_pos hfe]
        by_cases hmem : lowerStr (dotSuffix (lastComponent f)) ∈ recognizedSuffixes
        · rw [if_pos hmem]
          exact hmem
        · rw [if_neg hmem]
          split_ifs <;> decide
      · rw [if_neg hfe]
        split_ifs <;> decide
  · intro ct f hne hmem
    simp only [choose_suffix]
    have hfe : (!f.isEmpty) = true := by
      cases f with
      | nil => exact absurd rfl hne
      | cons c t => rfl
    rw [if_pos hfe, if_pos hmem]

/-- Witness for C4: applying the extension-precedence clause at
    `"call.ogg"` with an unrelated declared content type. -/
theorem format_sniffer_resolution_witness :
    ("call.ogg".data ≠ ([] : List Char)) ∧
      lowerStr (dotSuffix (lastComponent ("call.ogg".data))) ∈ recognizedSuffixes ∧
      choose_suffix (some ("application/octet-stream".data)) (some ("call.ogg".data)) =
        lowerStr (dotSuffix (lastComponent ("call.ogg".data))) :=
  ⟨by decide, by decide,
    format_sniffer_resolution.2.1 (some ("application/octet-stream".data))
      ("call.ogg".data) (by decide) (by decide)⟩

theorem transcribeBody_lease (cfg : Config) (req : Request) (engine : Engine)
    (removeOk : Bool) :
    ((transcribeBody cfg req engine removeOk).2.countP isLeaseRelease =
        (transcribeBody cfg req engine removeOk).2.countP isLeaseCreate) ∧
      (transcribeBody cfg req engine removeOk).2.countP isLeaseCreate ≤ 1 ∧
      (transcribeBody cfg req engine true).1 = (transcribeBody cfg req engine false).1 := by
  simp only [transcribeBody]
  by_cases h1 : req.body.isEmpty = true
  · simp only [if_pos h1]
    exact ⟨rfl, Nat.zero_le 1, by trivial⟩
  · simp only [if_neg h1]
    by_cases h2 : cfg.max_body_bytes < req.body.length
    · simp only [if_pos h2]
      exact ⟨rfl, Nat.zero_le 1, by trivial⟩
    · simp only [if_neg h2]
      cases hi : transcribe_file_impl cfg engine req.q_language req.q_prompt none with
      | error e =>
        simp only [hi]
        exact ⟨rfl, Nat.le_refl 1, by trivial⟩
      | ok res1 =>
        simp only [hi]
        by_cases h3 : res1.avg_logprob < cfg.retry_logprob_threshold ∧
            ¬(stripWs res1.text).isEmpty = true ∧ cfg.beam_size < cfg.retry_beam_size
        · simp only [if_pos h3]
          cases hr : transcribe_file_impl cfg engine req.q_language req.q_prompt
              (some cfg.retry_beam_size) with
          | error e =>
            simp only [hr]
            exact ⟨rfl, Nat.le_refl 1, by trivial⟩
          | ok res2 =>
            simp only [hr]
            exact ⟨rfl, Nat.le_refl 1, by trivial⟩
        · simp only [if_neg h3]
          exact ⟨rfl, Nat.le_refl 1, by trivial⟩

/-- C7: on every exit path of the `transcribe` handler the `finally` block
    releases the temporary-file lease exactly as many times as a lease was
    created (at most once), and whether the `os.remove` deletion succeeds
    or fails does not change the response returned to the caller. -/
theorem lease_release_exactly_once (cfg : Config) (req : Request) (engine : Engine)
    (removeOk : Bool) :
    ((transcribe cfg req engine removeOk).2.countP isLeaseRelease =
        (transcribe cfg req engine removeOk).2.countP isLeaseCreate) ∧
      (transcribe cfg req engine removeOk).2.countP isLeaseCreate ≤ 1 ∧
      (transcribe cfg req engine true).1 = (transcribe cfg req engine false).1 := by
  cases hcl : req.content_length with
  | none =>
    simp only [transcribe, hcl]
    exact transcribeBody_lease cfg req engine removeOk
  | some o =>
    cases o with
    | none =>
      simp only [transcribe, hcl]
      exact ⟨rfl, Nat.zero_le 1, by trivial⟩
    | some n =>
      simp only [transcribe, hcl]
      by_cases hn : (cfg.max_body_bytes : ℤ) < n
      · simp only [if_pos hn]
        exact ⟨rfl, Nat.zero_le 1, by trivial⟩
      · simp only [if_neg hn]
        exact transcribeBody_lease cfg req engine removeOk

/-- C8: a request whose body is empty or exceeds the configured maximum is
    rejected with a 4xx response (400 EmptyPayload or 413 PayloadTooLarge)
    before any action is taken: no lease is created and the engine is never
    invoked (the trace is empty). -/
theorem payload_rejected_before_lease (cfg : Config) (req : Request) (engine : Engine)
    (removeOk : Bool) (hcl : clPasses cfg req)
    (hbad : req.body = [] ∨ cfg.max_body_bytes < req.body.length) :
    (transcribe cfg req engine removeOk).2 = [] ∧
      ((transcribe cfg req engine removeOk).1 = .err 400 .emptyBody ∨
        (transcribe cfg req engine removeOk).1 = .err 413 .tooLarge) := by
  rw [transcribe_eq_body cfg req engine removeOk hcl]
  simp only [transcribeBody]
  by_cases h1 : req.body.isEmpty = true
  · simp only [if_pos h1]
    exact ⟨by trivial, Or.inl (by trivial)⟩
  · have hbod : ¬(req.body = []) := by
      intro hh
      apply h1
      rw [hh]
      rfl
    rcases hbad with hb | hb
    · exact absurd hb hbod
    · simp only [if_neg h1, if_pos hb]
      exact ⟨by trivial, Or.inr (by trivial)⟩

/-- Witness for C8: the empty-body request is rejected with 400 and an
    empty action trace. -/
theorem payload_rejected_before_lease_witness :
    clPasses cfg0 reqEmpty ∧
      (reqEmpty.body = [] ∨ cfg0.max_body_bytes < reqEmpty.body.length) ∧
      ((transcribe cfg0 reqEmpty engineBothOk true).2 = [] ∧
        ((transcribe cfg0 reqEmpty engineBothOk true).1 = .err 400 .emptyBody ∨
          (transcribe cfg0 reqEmpty engineBothOk true).1 = .err 413 .tooLarge)) :=
  ⟨Or.inl rfl, Or.inl rfl,
    payload_rejected_before_lease cfg0 reqEmpty engineBothOk true (Or.inl rfl) (Or.inl rfl)⟩

/-- C10: the multipart `transcribe_file` endpoint invokes the engine
    exactly once, with the process-default beam width, language and prompt;
    it performs no confidence-based retry and ignores any per-request
    language or prompt overrides. -/
theorem multipart_single_default_call (cfg : Config) (data : List UInt8)
    (ct fn qL qP qL2 qP2 : Option (List Char)) (engine : Engine) (removeOk : Bool)
    (hne : data ≠ []) (hsz : data.length ≤ cfg.max_body_bytes) :
    engineCallsOf (transcribe_file_endpoint cfg ⟨data, ct, fn, qL, qP⟩ engine removeOk).2 =
        [mkEngineCall cfg none none none] ∧
      (mkEngineCall cfg none none none).beam = cfg.beam_size ∧
      (mkEngineCall cfg none none none).language = cfg.language ∧
      transcribe_file_endpoint cfg ⟨data, ct, fn, qL, qP⟩ engine removeOk =
        transcribe_file_endpoint cfg ⟨data, ct, fn, qL2, qP2⟩ engine removeOk := by
  refine ⟨?_, rfl, rfl, rfl⟩
  simp only [transcribe_file_endpoint]
  rw [if_neg (show ¬((⟨data, ct, fn, qL, qP⟩ : UploadReq).data.isEmpty = true) by
    intro hh
    exact hne (List.isEmpty_iff.mp hh))]
  rw [if_neg (show ¬(cfg.max_body_bytes < (⟨data, ct, fn, qL, qP⟩ : UploadReq).data.length) by
    show ¬(cfg.max_body_bytes < data.length)
    omega)]
  cases hi : transcribe_file_impl cfg engine none none none with
  | error e =>
    simp only [hi]
    rfl
  | ok res =>
    simp only [hi]
    rfl

/-- Witness for C10: a concrete valid upload, with two different override
    pairs producing identical behaviour and one default-parameter engine
    call. -/
theorem multipart_single_default_call_witness :
    (([0] : List UInt8) ≠ []) ∧ ([0] : List UInt8).length ≤ cfg0.max_body_bytes ∧
      (engineCallsOf (transcribe_file_endpoint cfg0
            ⟨[0], some ("audio/wav".data), some ("call.wav".data), none, none⟩
            engineBothOk true).2 = [mkEngineCall cfg0 none none none] ∧
        (mkEngineCall cfg0 none none none).beam = cfg0.beam_size ∧
        (mkEngineCall cfg0 none none none).language = cfg0.language ∧
        transcribe_file_endpoint cfg0
            ⟨[0], some ("audio/wav".data), some ("call.wav".data), none, none⟩
            engineBothOk true =
          transcribe_file_endpoint cfg0
            ⟨[0], some ("audio/wav".data), some ("call.wav".data),
              some ("es".data), some ("hola".data)⟩
            engineBothOk true) :=
  ⟨by decide, by decide,
    multipart_single_default_call cfg0 [0] (some ("audio/wav".data))
      (some ("call.wav".data)) none none (some ("es".data)) (some ("hola".data))
      engineBothOk true (by decide) (by decide)⟩

/-- C1 counterexample: the claim that a retry-attempt `EngineFailure` is
    swallowed in favour of the first attempt's result is false.  With an
    engine whose default-beam call succeeds (low confidence, non-empty
    text) and whose escalated-beam call raises, the retry is triggered
    (two engine invocations in the trace) and `transcribe` returns the 500
    error response, not the first attempt's result. -/
theorem retry_failure_fallback_cex :
    engineRetryFails (mkEngineCall cfg0 none none none) = Except.ok [seg0] ∧
      engineRetryFails (mkEngineCall cfg0 none none (some cfg0.retry_beam_size)) =
        Except.error () ∧
      (transcribe cfg0 req0 engineRetryFails true).2.countP isEngineInvoke = 2 ∧
      (transcribe cfg0 req0 engineRetryFails true).1 =
        Response.err 500 Msg.transcriptionFailed := by
  exact ⟨by decide, by decide, by decide, by decide⟩

/-- C1 amended: when the first engine attempt succeeds, the retry
    escalation triggers, and the second engine invocation fails with
    `EngineFailure`, `transcribe` surfaces the 500 Transcription-failed
    error (the exception propagates to the handler's `except` clause)
    instead of falling back to the first attempt's result; the lease is
    still released by the `finally` block. -/
theorem retry_failure_surfaces_error (cfg : Config) (req : Request) (engine : Engine)
    (removeOk : Bool) (res1 : EngineResult)
    (hcl : clPasses cfg req) (hne : req.body ≠ [])
    (hsz : req.body.length ≤ cfg.max_body_bytes)
    (h1 : transcribe_file_impl cfg engine req.q_language req.q_prompt none = .ok res1)
    (hretry : res1.avg_logprob < cfg.retry_logprob_threshold ∧
      ¬(stripWs res1.text).isEmpty = true ∧ cfg.beam_size < cfg.retry_beam_size)
    (h2 : transcribe_file_impl cfg engine req.q_language req.q_prompt
        (some cfg.retry_beam_size) = .error ()) :
    (transcribe cfg req engine removeOk).1 = .err 500 .transcriptionFailed ∧
      (transcribe cfg req engine removeOk).2.countP isLeaseRelease = 1 := by
  rw [transcribe_eq_body cfg req engine removeOk hcl]
  simp only [transcribeBody]
  rw [if_neg (show ¬(req.body.isEmpty = true) by
    intro hh
    exact hne (List.isEmpty_iff.mp hh))]
  rw [if_neg (by omega : ¬(cfg.max_body_bytes < req.body.length))]
  simp only [h1]
  rw [if_pos hretry]
  simp only [h2]
  exact ⟨by trivial, by trivial⟩

/-- Witness for C1's amended statement, at the concrete failing-retry
    engine. -/
theorem retry_failure_surfaces_error_witness :
    clPasses cfg0 req0 ∧ req0.body ≠ [] ∧ req0.body.length ≤ cfg0.max_body_bytes ∧
      transcribe_file_impl cfg0 engineRetryFails req0.q_language req0.q_prompt none =
        .ok ⟨"Hello there".data, -1⟩ ∧
      transcribe_file_impl cfg0 engineRetryFails req0.q_language req0.q_prompt
        (some cfg0.retry_beam_size) = .error () ∧
      ((transcribe cfg0 req0 engineRetryFails true).1 = .err 500 .transcriptionFailed ∧
        (transcribe cfg0 req0 engineRetryFails true).2.countP isLeaseRelease = 1) :=
  ⟨Or.inl rfl, by decide, by decide, by decide, by decide,
    retry_failure_surfaces_error cfg0 req0 engineRetryFails true ⟨"Hello there".data, -1⟩
      (Or.inl rfl) (by decide) (by decide) (by decide) (by decide) (by decide)⟩

/-- C2: given the retry beam width exceeds the initial beam width and the
    first engine attempt succeeds with result `res1`, the retry escalation
    runs a second engine invocation if and only if `res1`'s aggregate
    confidence is strictly below the configured threshold and `res1`'s
    deduplicated text is non-empty; when no retry triggers the engine is
    invoked exactly once and `res1` is returned; when the retry also
    succeeds, the returned result is the attempt with the strictly higher
    aggregate confidence, the first attempt winning ties. -/
theorem retry_escalation_policy (cfg : Config) (req : Request) (engine : Engine)
    (removeOk : Bool) (res1 : EngineResult)
    (hbeam : cfg.beam_size < cfg.retry_beam_size)
    (hcl : clPasses cfg req) (hne : req.body ≠ [])
    (hsz : req.body.length ≤ cfg.max_body_bytes)
    (h1 : transcribe_file_impl cfg engine req.q_language req.q_prompt none = .ok res1) :
    ((transcribe cfg req engine removeOk).2.countP isEngineInvoke = 2 ↔
        (res1.avg_logprob < cfg.retry_logprob_threshold ∧ res1.text ≠ [])) ∧
      (¬(res1.avg_logprob < cfg.retry_logprob_threshold ∧ res1.text ≠ []) →
        (transcribe cfg req engine removeOk).2.countP isEngineInvoke = 1 ∧
        (transcribe cfg req engine removeOk).1 = .ok res1.text res1.avg_logprob) ∧
      (∀ res2 : EngineResult,
        res1.avg_logprob < cfg.retry_logprob_threshold → res1.text ≠ [] →
        transcribe_file_impl cfg engine req.q_language req.q_prompt
            (some cfg.retry_beam_size) = .ok res2 →
        (transcribe cfg req engine removeOk).1 =
          if res1.avg_logprob < res2.avg_logprob then .ok res2.text res2.avg_logprob
          else .ok res1.text res1.avg_logprob) := by
  obtain ⟨segs1, he1, hres1⟩ := transcribe_file_impl_ok_inv cfg engine _ _ _ res1 h1
  have htext : res1.text = deduplicate_text (stripWs (joinTexts segs1)) := by rw [hres1]
  have hcond : ((stripWs res1.text).isEmpty = true) ↔ res1.text = [] := by
    rw [List.isEmpty_iff, htext]
    exact dedup_strip_empty_iff (stripWs (joinTexts segs1))
  rw [transcribe_eq_body cfg req engine removeOk hcl]
  simp only [transcribeBody]
  rw [if_neg (show ¬(req.body.isEmpty = true) by
    intro hh
    exact hne (List.isEmpty_iff.mp hh))]
  rw [if_neg (by omega : ¬(cfg.max_body_bytes < req.body.length))]
  simp only [h1]
  by_cases hC : res1.avg_logprob < cfg.retry_logprob_threshold ∧ res1.text ≠ []
  · have hC2 : res1.avg_logprob < cfg.retry_logprob_threshold ∧
        ¬(stripWs res1.text).isEmpty = true ∧ cfg.beam_size < cfg.retry_beam_size :=
      ⟨hC.1, fun hh => hC.2 (hcond.mp hh), hbeam⟩
    rw [if_pos hC2]
    cases hr : transcribe_file_impl cfg engine req.q_language req.q_prompt
        (some cfg.retry_beam_size) with
    | error e =>
      simp only [hr]
      refine ⟨iff_of_true (countEngine_four _ _ _ _) hC, fun hn => absurd hC hn, ?_⟩
      intro res2 hconf htext2 h2
      exact Except.noConfusion h2
    | ok res2 =>
      simp only [hr]
      refine ⟨iff_of_true (countEngine_four _ _ _ _) hC, fun hn => absurd hC hn, ?_⟩
      intro res2x hconf htext2 h2
      injection h2 with h2x
      subst h2x
      by_cases hcmp : res1.avg_logprob < res2.avg_logprob
      · simp [hcmp]
      · simp [hcmp]
  · have hC2 : ¬(res1.avg_logprob < cfg.retry_logprob_threshold ∧
        ¬(stripWs res1.text).isEmpty = true ∧ cfg.beam_size < cfg.retry_beam_size) := by
      intro hh
      exact hC ⟨hh.1, fun htxt => hh.2.1 (hcond.mpr htxt)⟩
    rw [if_neg hC2]
    refine ⟨?_, fun hn => ⟨countEngine_three _ _ _, by trivial⟩, ?_⟩
    · exact iff_of_false
        (fun h => by
          have h12 : (1 : ℕ) = 2 := (countEngine_three _ _ _).symm.trans h
          omega)
        hC
    · intro res2 hconf htext2 h2
      exact absurd ⟨hconf, htext2⟩ hC

/-- Witness for C2: with the concrete two-attempt engine the retry triggers
    and the higher-confidence retry result is returned. -/
theorem retry_escalation_policy_witness :
    cfg0.beam_size < cfg0.retry_beam_size ∧ clPasses cfg0 req0 ∧ req0.body ≠ [] ∧
      req0.body.length ≤ cfg0.max_body_bytes ∧
      transcribe_file_impl cfg0 engineBothOk req0.q_language req0.q_prompt none =
        .ok ⟨"Hello there".data, -1⟩ ∧
      transcribe_file_impl cfg0 engineBothOk req0.q_language req0.q_prompt
        (some cfg0.retry_beam_size) = .ok ⟨"Hello there friend".data, -1 / 10⟩ ∧
      (transcribe cfg0 req0 engineBothOk true).1 =
        .ok ("Hello there friend".data) (-1 / 10) :=
  ⟨by decide, Or.inl rfl, by decide, by decide, by decide, by decide,
    ((retry_escalation_policy cfg0 req0 engineBothOk true ⟨"Hello there".data, -1⟩
        (by decide) (Or.inl rfl) (by decide) (by decide) (by decide)).2.2
      ⟨"Hello there friend".data, -1 / 10⟩ (by decide) (by decide) (by decide)).trans
      (by decide)⟩
